import Mathlib

/-!
Verification of the dawg audio DSP core (dawg-audio-dsp crate).

Shallow embedding conventions:
* `f32` sample values are embedded as exact rationals (`ℚ`) where only
  field arithmetic and comparisons occur, and as reals (`ℝ`) where the
  source uses transcendental functions (`cos`, `sin`, `exp`, `powf`).
* For the comb-filter finiteness guard (`is_finite`), `f32` is embedded
  as the type `FVal`: either a finite rational or the single abstract
  non-finite value `FVal.nonfin`, which propagates through arithmetic
  (mirroring NaN/inf propagation).
* `u64`/`usize` become `ℕ`; the Rust cast `f32 as u64`/`as usize`
  (truncation toward zero, saturating at 0 for negatives/NaN) becomes
  `castU` below.
* In-place slice updates become pure functions returning new lists;
  out-of-bounds reads, which would panic in Rust and are excluded by the
  callers' invariants, are totalized with a default of `0`.
-/

namespace Dawg

/-! ## A model of f32 with a non-finite element (for the comb-filter guard)

Finite f32 values are rationals; `nonfin` stands for every non-finite
value (inf, -inf, NaN).  Arithmetic propagates non-finiteness, matching
IEEE behaviour for the operations used in `CombFilter::process`. -/

inductive FVal where
  | fin : ℚ → FVal
  | nonfin : FVal
deriving DecidableEq, Repr

namespace FVal

def add : FVal → FVal → FVal
  | fin a, fin b => fin (a + b)
  | _, _ => nonfin

def mul : FVal → FVal → FVal
  | fin a, fin b => fin (a * b)
  | _, _ => nonfin

def sub : FVal → FVal → FVal
  | fin a, fin b => fin (a - b)
  | _, _ => nonfin

instance : Add FVal := ⟨add⟩
instance : Mul FVal := ⟨mul⟩
instance : Sub FVal := ⟨sub⟩
instance : Zero FVal := ⟨fin 0⟩

/-- Model of `f32::is_finite`. -/
def isFinite : FVal → Bool
  | fin _ => true
  | nonfin => false

end FVal

/-- The Rust cast `expr as u64` / `as usize` applied to a float value:
truncation toward zero, saturating at `0` for negative values. -/
def castU (q : ℚ) : ℕ := if q < 0 then 0 else ⌊q⌋.toNat

/-! ## DelayLine (filters.rs lines 77-140)

```rust
pub struct DelayLine { buffer: Vec<f32>, index: usize }
```
The sample type is a parameter so the same structure serves the
rational, real and `FVal` instantiations of `f32`. -/

structure DelayLine (α : Type) where
  buffer : List α
  index : ℕ
deriving DecidableEq, Repr

namespace DelayLine

/-- `DelayLine::new` (filters.rs 83-90): capacity clamped to a minimum of 16. -/
def new (α : Type) [Zero α] (size : ℕ) : DelayLine α :=
  { buffer := List.replicate (max size 16) 0, index := 0 }

/-- `DelayLine::read` (filters.rs 92-94): the sample at the cursor. -/
def read [Zero α] (d : DelayLine α) : α :=
  d.buffer.getD d.index 0

/-- `DelayLine::read_at` (filters.rs 96-99):
`buffer[(index + len - offset) % len]`. -/
def read_at [Zero α] (d : DelayLine α) (offset : ℕ) : α :=
  d.buffer.getD ((d.index + d.buffer.length - offset) % d.buffer.length) 0

/-- `DelayLine::write` (filters.rs 129-132): store at the cursor, advance
modulo capacity. -/
def write (d : DelayLine α) (value : α) : DelayLine α :=
  { buffer := d.buffer.set d.index value,
    index := (d.index + 1) % d.buffer.length }

/-- `DelayLine::reset` (filters.rs 134-139). -/
def reset [Zero α] (d : DelayLine α) : DelayLine α :=
  { buffer := List.replicate d.buffer.length 0, index := 0 }

/-- `DelayLine::read_interpolated` (filters.rs 103-127), for a sample type
with floor (used at `ℚ` and `ℝ`).  `delay_samples.floor() as usize` is
`(⌊delay⌋).toNat` (saturating at 0). -/
def read_interpolated [LinearOrderedField α] [FloorRing α]
    (d : DelayLine α) (delay_samples : α) : α :=
  let delay_int : ℕ := (⌊delay_samples⌋).toNat
  let delay_frac : α := delay_samples - (delay_int : α)
  let buf_len := d.buffer.length
  let offset := delay_int % buf_len
  let idx1 := if d.index ≥ offset then d.index - offset else d.index + buf_len - offset
  let idx2 := if idx1 = 0 then buf_len - 1 else idx1 - 1
  let s1 := d.buffer.getD idx1 0
  let s2 := d.buffer.getD idx2 0
  s1 + (s2 - s1) * delay_frac

/-- `DelayLine::read_interpolated` at the `FVal` instantiation of `f32`
(used by `CombFilter::process_modulated`).  The delay argument is the
finite rational payload; the interpolation arithmetic is `FVal`
arithmetic. -/
def read_interpolated_fv (d : DelayLine FVal) (delay_samples : ℚ) : FVal :=
  let delay_int : ℕ := (⌊delay_samples⌋).toNat
  let delay_frac : FVal := FVal.fin (delay_samples - (delay_int : ℚ))
  let buf_len := d.buffer.length
  let offset := delay_int % buf_len
  let idx1 := if d.index ≥ offset then d.index - offset else d.index + buf_len - offset
  let idx2 := if idx1 = 0 then buf_len - 1 else idx1 - 1
  let s1 := d.buffer.getD idx1 0
  let s2 := d.buffer.getD idx2 0
  s1 + (s2 - s1) * delay_frac

/-- Writing a list of samples in order (repeated `write`). -/
def writeAll (d : DelayLine α) (vs : List α) : DelayLine α :=
  vs.foldl write d

end DelayLine

/-! ## CombFilter (filters.rs 142-206), over the `FVal` model of f32. -/

structure CombFilter where
  delay : DelayLine FVal
  filter_state : FVal
  filter_state2 : FVal
  base_size : ℕ
deriving DecidableEq, Repr

namespace CombFilter

/-- `CombFilter::new` (filters.rs 150-157). -/
def new (size : ℕ) : CombFilter :=
  { delay := DelayLine.new FVal size,
    filter_state := 0, filter_state2 := 0, base_size := size }

/-- `CombFilter::process` (filters.rs 159-177).  Returns the updated
filter and the output sample. -/
def process (c : CombFilter) (input feedback damp1 damp2 : FVal) :
    CombFilter × FVal :=
  let output := c.delay.read
  let fs := output + damp1 * (c.filter_state - output)
  let fs2 := fs + damp2 * (c.filter_state2 - fs)
  let filtered := fs2
  let new_input := input + filtered * feedback
  let safe_input := if new_input.isFinite then new_input else 0
  ({ c with delay := c.delay.write safe_input,
            filter_state := fs, filter_state2 := fs2 }, output)

/-- `CombFilter::process_modulated` (filters.rs 180-199): identical but
reading at a caller-supplied fractional delay. -/
def process_modulated (c : CombFilter) (input feedback damp1 damp2 : FVal)
    (mod_delay : ℚ) : CombFilter × FVal :=
  let output := c.delay.read_interpolated_fv mod_delay
  let fs := output + damp1 * (c.filter_state - output)
  let fs2 := fs + damp2 * (c.filter_state2 - fs)
  let filtered := fs2
  let new_input := input + filtered * feedback
  let safe_input := if new_input.isFinite then new_input else 0
  ({ c with delay := c.delay.write safe_input,
            filter_state := fs, filter_state2 := fs2 }, output)

/-- `CombFilter::reset` (filters.rs 201-205). -/
def reset (c : CombFilter) : CombFilter :=
  { c with delay := c.delay.reset, filter_state := 0, filter_state2 := 0 }

end CombFilter

/-! ## Transport (lib.rs 35-160) -/

structure Transport where
  is_playing : Bool
  sample_rate : ℚ
  bpm : ℚ
  current_sample : ℕ
  ppq : ℕ
  samples_per_beat : ℚ
  samples_per_tick : ℚ
  loop_enabled : Bool
  loop_start_tick : ℚ
  loop_end_tick : ℚ
deriving DecidableEq, Repr

namespace Transport

/-- `Transport::recalculate_timing` (lib.rs 154-159). -/
def recalculate_timing (t : Transport) : Transport :=
  let spb := t.sample_rate * 60 / t.bpm
  { t with samples_per_beat := spb, samples_per_tick := spb / (t.ppq : ℚ) }

/-- `Transport::new` (lib.rs 57-72). -/
def new (sample_rate : ℚ) : Transport :=
  recalculate_timing
    { is_playing := false, sample_rate := sample_rate, bpm := 120,
      current_sample := 0, ppq := 96, samples_per_beat := 0,
      samples_per_tick := 0, loop_enabled := false,
      loop_start_tick := 0, loop_end_tick := 0 }

/-- `Transport::set_bpm` (lib.rs 74-79). -/
def set_bpm (t : Transport) (bpm : ℚ) : Transport :=
  if bpm > 0 then recalculate_timing { t with bpm := bpm } else t

/-- `Transport::play` (lib.rs 88-90). -/
def play (t : Transport) : Transport := { t with is_playing := true }

/-- `Transport::stop` (lib.rs 92-95). -/
def stop (t : Transport) : Transport :=
  { t with is_playing := false, current_sample := 0 }

/-- `Transport::pause` (lib.rs 97-99). -/
def pause (t : Transport) : Transport := { t with is_playing := false }

/-- `Transport::advance` (lib.rs 101-125).  The `worker_log` call is pure
diagnostics and is omitted. -/
def advance (t : Transport) (samples : ℕ) : Transport :=
  if t.is_playing then
    let cur := t.current_sample + samples
    if t.loop_enabled ∧ t.loop_end_tick > t.loop_start_tick then
      let loop_end_sample := castU (t.loop_end_tick * t.samples_per_tick)
      if cur ≥ loop_end_sample then
        let loop_start_sample := castU (t.loop_start_tick * t.samples_per_tick)
        let loop_len := loop_end_sample - loop_start_sample
        if loop_len > 0 then
          let overshoot := cur - loop_end_sample
          { t with current_sample := loop_start_sample + overshoot % loop_len }
        else { t with current_sample := cur }
      else { t with current_sample := cur }
    else { t with current_sample := cur }
  else t

/-- `Transport::set_loop` (lib.rs 127-131). -/
def set_loop (t : Transport) (enabled : Bool) (start_tick end_tick : ℚ) :
    Transport :=
  { t with loop_enabled := enabled, loop_start_tick := start_tick,
           loop_end_tick := end_tick }

/-- `Transport::set_position_samples` (lib.rs 134-136). -/
def set_position_samples (t : Transport) (samples : ℕ) : Transport :=
  { t with current_sample := samples }

/-- `Transport::get_current_tick` (lib.rs 148-150). -/
def get_current_tick (t : Transport) : ℚ :=
  (t.current_sample : ℚ) / t.samples_per_tick

end Transport

/-! ## BiquadFilter (lib.rs 198-262) and ThreeBandEQ (lib.rs 268-332), over ℝ

The sample values are embedded as reals because the channel-strip chain
uses `cos`/`sin`/`exp`/`powf` downstream. -/

noncomputable section

structure BiquadFilter where
  b0 : ℝ
  b1 : ℝ
  b2 : ℝ
  a1 : ℝ
  a2 : ℝ
  x1 : ℝ
  x2 : ℝ
  y1 : ℝ
  y2 : ℝ

namespace BiquadFilter

/-- `BiquadFilter::new` (lib.rs 216-229). -/
def new : BiquadFilter :=
  { b0 := 1, b1 := 0, b2 := 0, a1 := 0, a2 := 0, x1 := 0, x2 := 0, y1 := 0, y2 := 0 }

/-- `BiquadFilter::process` (lib.rs 232-244). -/
def process (f : BiquadFilter) (input : ℝ) : BiquadFilter × ℝ :=
  let output := f.b0 * input + f.b1 * f.x1 + f.b2 * f.x2 - f.a1 * f.y1 - f.a2 * f.y2
  ({ f with x2 := f.x1, x1 := input, y2 := f.y1, y1 := output }, output)

/-- `BiquadFilter::reset` (lib.rs 256-261). -/
def reset (f : BiquadFilter) : BiquadFilter :=
  { f with x1 := 0, x2 := 0, y1 := 0, y2 := 0 }

end BiquadFilter

structure ThreeBandEQ where
  low : BiquadFilter
  mid : BiquadFilter
  high : BiquadFilter
  sample_rate : ℝ

namespace ThreeBandEQ

/-- `ThreeBandEQ::new` (lib.rs 278-286). -/
def new (sample_rate : ℝ) : ThreeBandEQ :=
  { low := BiquadFilter.new, mid := BiquadFilter.new, high := BiquadFilter.new,
    sample_rate := sample_rate }

/-- `ThreeBandEQ::process` (lib.rs 318-324). -/
def process (e : ThreeBandEQ) (input : ℝ) : ThreeBandEQ × ℝ :=
  let (lo, o1) := e.low.process input
  let (mi, o2) := e.mid.process o1
  let (hi, o3) := e.high.process o2
  ({ e with low := lo, mid := mi, high := hi }, o3)

/-- `ThreeBandEQ::reset` (lib.rs 327-331). -/
def reset (e : ThreeBandEQ) : ThreeBandEQ :=
  { e with low := e.low.reset, mid := e.mid.reset, high := e.high.reset }

end ThreeBandEQ

/-! ## ChannelStrip (lib.rs 572-762) -/

/-- The pan-gain computation of `ChannelStrip::process_block`
(lib.rs 693-706): gains start at `(1, 1)` and the constant-power law
plus off-center linear attenuation is applied only when `pan != 0.0`. -/
def panGains (pan : ℝ) : ℝ × ℝ :=
  if pan ≠ 0 then
    let p_norm := (pan + 1) * 0.25 * Real.pi
    let gl := Real.cos p_norm
    let gr := Real.sin p_norm
    if pan > 0 then (gl * (1 - pan), gr) else (gl, gr * (1 + pan))
  else (1, 1)

/-- One step of `ChannelStrip::process_compression` (lib.rs 733-755).
Returns the updated `(comp_gain, comp_threshold_linear)`; the gain
applied to the sample is the updated `comp_gain`. -/
def compressionStep (comp_gain comp_threshold_linear l r threshold rat sample_rate : ℝ) :
    ℝ × ℝ :=
  let input_level := max |l| |r|
  if input_level < 0.001 ∨ threshold ≥ 0 then
    (comp_gain + (1 - comp_gain) * 0.003, comp_threshold_linear)
  else
    let ctl := (10 : ℝ) ^ (threshold / 20)
    let target_gain :=
      if input_level > ctl then 1 / (1 + ((input_level - ctl) / ctl) / rat) else 1
    let time_constant := if target_gain < comp_gain then (0.003 : ℝ) else 0.1
    let smoothing_factor := 1 - Real.exp (-1 / (time_constant * sample_rate))
    (comp_gain + (target_gain - comp_gain) * smoothing_factor, ctl)

/-- The EQ loop of `ChannelStrip::process_block` (lib.rs 675-680):
both channels processed in lockstep, threading the two EQ states. -/
def eqRun (eqL eqR : ThreeBandEQ) :
    List ℝ → List ℝ → ThreeBandEQ × ThreeBandEQ × List ℝ × List ℝ
  | l :: ls, r :: rs =>
      let (eqL1, l') := eqL.process l
      let (eqR1, r') := eqR.process r
      let (eqL2, eqR2, ls', rs') := eqRun eqL1 eqR1 ls rs
      (eqL2, eqR2, l' :: ls', r' :: rs')
  | ls, rs => (eqL, eqR, ls, rs)

/-- The compression loop of `ChannelStrip::process_block`
(lib.rs 683-691), threading `(comp_gain, comp_threshold_linear)`. -/
def compRun (threshold rat sample_rate : ℝ) (comp_gain comp_threshold_linear : ℝ) :
    List ℝ → List ℝ → ℝ × ℝ × List ℝ × List ℝ
  | l :: ls, r :: rs =>
      let (cg', ctl') :=
        compressionStep comp_gain comp_threshold_linear l r threshold rat sample_rate
      let (cgF, ctlF, ls', rs') := compRun threshold rat sample_rate cg' ctl' ls rs
      (cgF, ctlF, (l * cg') :: ls', (r * cg') :: rs')
  | ls, rs => (comp_gain, comp_threshold_linear, ls, rs)

/-- The gain/pan/metering loop of `ChannelStrip::process_block`
(lib.rs 713-724): applies the final gains and tracks the block's peak
absolute value per side. -/
def gainRun (gl gr : ℝ) :
    List ℝ → List ℝ → ℝ → ℝ → List ℝ × List ℝ × ℝ × ℝ
  | l :: ls, r :: rs, mL, mR =>
      let l' := l * gl
      let r' := r * gr
      let mL' := if |l'| > mL then |l'| else mL
      let mR' := if |r'| > mR then |r'| else mR
      let (ls', rs', mLf, mRf) := gainRun gl gr ls rs mL' mR'
      (l' :: ls', r' :: rs', mLf, mRf)
  | ls, rs, mL, mR => (ls, rs, mL, mR)

/-! ## SimpleDelay (effects.rs 9-72), the only insert effect constructible
through `UnifiedMixerProcessor::add_effect` (lib.rs 1072-1084). -/

structure SimpleDelayS where
  delays : List (DelayLine ℝ)
  delay_samples : ℝ
  feedback : ℝ
  mix : ℝ
  sample_rate : ℝ

/-- The per-channel loop of `SimpleDelay::process` (effects.rs 59-69). -/
def simpleDelayRun (ds fb mx : ℝ) : DelayLine ℝ → List ℝ → DelayLine ℝ × List ℝ
  | dl, [] => (dl, [])
  | dl, x :: xs =>
      let delayed := dl.read_interpolated ds
      let dl1 := dl.write (x + delayed * fb)
      let (dl2, ys) := simpleDelayRun ds fb mx dl1 xs
      (dl2, (x * (1 - mx) + delayed * mx) :: ys)

/-- `SimpleDelay::process` (effects.rs 50-71): processes
`min 2 delays.len` channels; output samples beyond the processed range
keep the destination buffer's previous contents. -/
def SimpleDelayS.process (sd : SimpleDelayS) (input_l input_r output_l output_r : List ℝ) :
    SimpleDelayS × List ℝ × List ℝ :=
  match sd.delays with
  | [] => (sd, output_l, output_r)
  | [d0] =>
      let (d0', ys) := simpleDelayRun sd.delay_samples sd.feedback sd.mix d0 input_l
      ({ sd with delays := [d0'] }, ys ++ output_l.drop input_l.length, output_r)
  | d0 :: d1 :: rest =>
      let (d0', ys) := simpleDelayRun sd.delay_samples sd.feedback sd.mix d0 input_l
      let (d1', zs) := simpleDelayRun sd.delay_samples sd.feedback sd.mix d1 input_r
      ({ sd with delays := d0' :: d1' :: rest },
       ys ++ output_l.drop input_l.length, zs ++ output_r.drop input_r.length)

/-- `ChannelStrip` (lib.rs 572-602).  The scratch buffers `temp_l`/`temp_r`
are omitted: they are only ever written (zero-padded on resize), never
read, because the insert loop body is commented out in the source.
`inserts` holds `SimpleDelay` states, the only effect type `add_effect`
can construct. -/
structure ChannelStrip where
  eq_l : ThreeBandEQ
  eq_r : ThreeBandEQ
  comp_gain : ℝ
  comp_threshold_linear : ℝ
  gain : ℝ
  pan : ℝ
  mute : Bool
  solo : Bool
  eq_active : Bool
  comp_active : Bool
  comp_threshold : ℝ
  comp_ratio_val : ℝ
  inserts : List SimpleDelayS
  peak_l : ℝ
  peak_r : ℝ

namespace ChannelStrip

/-- `ChannelStrip::new` (lib.rs 605-625). -/
def new (sample_rate : ℝ) : ChannelStrip :=
  { eq_l := ThreeBandEQ.new sample_rate, eq_r := ThreeBandEQ.new sample_rate,
    comp_gain := 1, comp_threshold_linear := 1, gain := 1, pan := 0,
    mute := false, solo := false, eq_active := false, comp_active := false,
    comp_threshold := -12, comp_ratio_val := 4, inserts := [],
    peak_l := 0, peak_r := 0 }

end ChannelStrip

/-- The insert loop of `ChannelStrip::process_block` (lib.rs 651-672):
the loop iterates over the inserts but its body is commented out in the
source ("BYPASS INSERTS AS REQUESTED BY USER"), so it leaves the output
buffers unchanged. -/
def insertsStage (_ins : List SimpleDelayS) (outL outR : List ℝ) : List ℝ × List ℝ :=
  (outL, outR)

namespace ChannelStrip

/-- `ChannelStrip::process_block` (lib.rs 628-729).  Returns the updated
strip and the two output blocks. -/
def processBlock (s : ChannelStrip) (input_l input_r output_l output_r : List ℝ)
    (sample_rate : ℝ) : ChannelStrip × List ℝ × List ℝ :=
  if s.mute then
    (s, List.replicate output_l.length 0, List.replicate output_r.length 0)
  else
    let len := min output_l.length input_l.length
    let oL0 := input_l.take len ++ output_l.drop len
    let oR0 := input_r.take len ++ output_r.drop len
    let (oL1, oR1) := insertsStage s.inserts oL0 oR0
    let (eqL', eqR', oL2, oR2) :=
      if s.eq_active then
        let q := eqRun s.eq_l s.eq_r (oL1.take len) (oR1.take len)
        (q.1, q.2.1, q.2.2.1 ++ oL1.drop len, q.2.2.2 ++ oR1.drop len)
      else (s.eq_l, s.eq_r, oL1, oR1)
    let (cg', ctl', oL3, oR3) :=
      if s.comp_active then
        let q := compRun s.comp_threshold s.comp_ratio_val sample_rate
          s.comp_gain s.comp_threshold_linear (oL2.take len) (oR2.take len)
        (q.1, q.2.1, q.2.2.1 ++ oL2.drop len, q.2.2.2 ++ oR2.drop len)
      else (s.comp_gain, s.comp_threshold_linear, oL2, oR2)
    let pg := panGains s.pan
    let final_gain_l := s.gain * pg.1
    let final_gain_r := s.gain * pg.2
    let g := gainRun final_gain_l final_gain_r (oL3.take len) (oR3.take len) 0 0
    ({ s with eq_l := eqL', eq_r := eqR', comp_gain := cg',
              comp_threshold_linear := ctl', peak_l := g.2.2.1, peak_r := g.2.2.2 },
     g.1 ++ oL3.drop len, g.2.1 ++ oR3.drop len)

/-- `ChannelStrip::reset` (lib.rs 757-762): resets the EQ states and the
compressor gain.  The inserts are not touched. -/
def reset (s : ChannelStrip) : ChannelStrip :=
  { s with eq_l := s.eq_l.reset, eq_r := s.eq_r.reset, comp_gain := 1 }

end ChannelStrip

/-- Written from the spec's words, for comparison with the source's
`process_block` (claim C2): the insert chain in which "each insert reads
the current output and overwrites it with its processed result". -/
def insertChain : List SimpleDelayS → List ℝ → List ℝ → List SimpleDelayS × List ℝ × List ℝ
  | [], oL, oR => ([], oL, oR)
  | sd :: rest, oL, oR =>
      let (sd', oL', oR') := sd.process oL oR oL oR
      let (rest', oL2, oR2) := insertChain rest oL' oR'
      (sd' :: rest', oL2, oR2)

/-- Written from the spec's words, for comparison with the source's
`process_block` (claim C2): identical to `ChannelStrip.processBlock`
except that the insert stage actually applies the insert chain. -/
def ChannelStrip.processBlockWithInserts (s : ChannelStrip)
    (input_l input_r output_l output_r : List ℝ) (sample_rate : ℝ) :
    ChannelStrip × List ℝ × List ℝ :=
  if s.mute then
    (s, List.replicate output_l.length 0, List.replicate output_r.length 0)
  else
    let len := min output_l.length input_l.length
    let oL0 := input_l.take len ++ output_l.drop len
    let oR0 := input_r.take len ++ output_r.drop len
    let (inserts', oL1, oR1) := insertChain s.inserts oL0 oR0
    let (eqL', eqR', oL2, oR2) :=
      if s.eq_active then
        let q := eqRun s.eq_l s.eq_r (oL1.take len) (oR1.take len)
        (q.1, q.2.1, q.2.2.1 ++ oL1.drop len, q.2.2.2 ++ oR1.drop len)
      else (s.eq_l, s.eq_r, oL1, oR1)
    let (cg', ctl', oL3, oR3) :=
      if s.comp_active then
        let q := compRun s.comp_threshold s.comp_ratio_val sample_rate
          s.comp_gain s.comp_threshold_linear (oL2.take len) (oR2.take len)
        (q.1, q.2.1, q.2.2.1 ++ oL2.drop len, q.2.2.2 ++ oR2.drop len)
      else (s.comp_gain, s.comp_threshold_linear, oL2, oR2)
    let pg := panGains s.pan
    let final_gain_l := s.gain * pg.1
    let final_gain_r := s.gain * pg.2
    let g := gainRun final_gain_l final_gain_r (oL3.take len) (oR3.take len) 0 0
    ({ s with eq_l := eqL', eq_r := eqR', comp_gain := cg',
              comp_threshold_linear := ctl', inserts := inserts',
              peak_l := g.2.2.1, peak_r := g.2.2.2 },
     g.1 ++ oL3.drop len, g.2.1 ++ oR3.drop len)

/-! ## Shared control block (lib.rs 162-192) and UnifiedMixerProcessor
(lib.rs 776-1101) -/

/-- The shared-state buffer contents: integer view at indices 0-2 and
float view at indices 16-23 (lib.rs 171-192).  `none` in the mixer
models a null `shared_state_ptr`. -/
structure SharedState where
  play_state : ℤ
  msg_counter : ℤ
  seek_trigger : ℤ
  bpm : ℚ
  position_samples : ℚ
  position_ticks : ℚ
  sample_rate_f : ℚ
  seek_target : ℚ
  loop_enabled_f : ℚ
  loop_start_f : ℚ
  loop_end_f : ℚ

structure Mixer where
  channels : List ChannelStrip
  sample_rate : ℚ
  transport : Transport
  shared : Option SharedState
  master_comp_gain : ℝ
  master_comp_threshold_linear : ℝ
  any_solo_active : Bool
  temp_l : List ℝ
  temp_r : List ℝ
  in_l : List ℝ
  in_r : List ℝ

namespace Mixer

/-- `UnifiedMixerProcessor::new` (lib.rs 804-824). -/
def new (sample_rate : ℚ) (num_channels : ℕ) : Mixer :=
  { channels := List.replicate num_channels (ChannelStrip.new (sample_rate : ℝ)),
    sample_rate := sample_rate, transport := Transport.new sample_rate,
    shared := none, master_comp_gain := 1, master_comp_threshold_linear := 1,
    any_solo_active := false,
    temp_l := List.replicate 128 0, temp_r := List.replicate 128 0,
    in_l := List.replicate 128 0, in_r := List.replicate 128 0 }

/-- `UnifiedMixerProcessor::set_shared_state_buffer` (lib.rs 827-829). -/
def set_shared_state_buffer (m : Mixer) (st : SharedState) : Mixer :=
  { m with shared := some st }

/-- `UnifiedMixerProcessor::reset` (lib.rs 1055-1060). -/
def reset (m : Mixer) : Mixer :=
  { m with channels := m.channels.map ChannelStrip.reset, master_comp_gain := 1 }

/-- `UnifiedMixerProcessor::sync_state` (lib.rs 833-902).  A null shared
pointer returns immediately.  Order as in the source: play state, bpm,
seek (set position, flush via `reset`, clear trigger), loop parameters,
position write-back.  The static debug-logging block is pure
diagnostics and is omitted. -/
def syncState (m : Mixer) : Mixer :=
  match m.shared with
  | none => m
  | some st =>
    let t0 := m.transport
    let t1 :=
      if st.play_state = 0 then (if t0.is_playing then t0.stop else t0)
      else if st.play_state = 1 then (if ¬t0.is_playing then t0.play else t0)
      else if st.play_state = 2 then (if t0.is_playing then t0.pause else t0)
      else t0
    let t2 := if st.bpm > 0 ∧ |st.bpm - t1.bpm| > 0.001 then t1.set_bpm st.bpm else t1
    let doSeek := st.seek_trigger = 1 ∧ st.seek_target ≥ 0
    let t3 :=
      if doSeek then t2.set_position_samples (castU (st.seek_target * t2.samples_per_tick))
      else t2
    let channels' := if doSeek then m.channels.map ChannelStrip.reset else m.channels
    let mcg' := if doSeek then (1 : ℝ) else m.master_comp_gain
    let st1 := if st.seek_trigger = 1 then { st with seek_trigger := 0 } else st
    let t4 := t3.set_loop (if st.loop_enabled_f > 0.5 then true else false)
      st.loop_start_f st.loop_end_f
    let st2 := { st1 with position_samples := (t4.current_sample : ℚ),
                          position_ticks := t4.get_current_tick }
    { m with transport := t4, channels := channels', master_comp_gain := mcg',
             shared := some st2 }

end Mixer

/-- The de-interleave loop of `UnifiedMixerProcessor::process_mix`
(lib.rs 956-966) over a list of sample positions, threading the
persistent `in_l`/`in_r` buffers and the `has_signal` flag.  A sample
whose interleaved index is out of range is skipped (bounds check in the
source), leaving stale buffer contents in place. -/
def deintFrom (num_channels i : ℕ) (input : List ℝ) :
    List ℕ → List ℝ → List ℝ → Bool → List ℝ × List ℝ × Bool
  | [], bL, bR, flag => (bL, bR, flag)
  | s :: ss, bL, bR, flag =>
      let idx := s * num_channels * 2 + i * 2
      if idx + 1 < input.length then
        let l := input.getD idx 0
        let r := input.getD (idx + 1) 0
        deintFrom num_channels i input ss (bL.set s l) (bR.set s r)
          (if |l| > 0.0001 ∨ |r| > 0.0001 then true else flag)
      else deintFrom num_channels i input ss bL bR flag

/-- De-interleaving channel `i` over a whole block (lib.rs 956-966). -/
def deint (num_channels i block_size : ℕ) (input : List ℝ) (bL bR : List ℝ) :
    List ℝ × List ℝ × Bool :=
  deintFrom num_channels i input (List.range block_size) bL bR false

/-- The mutable state threaded through the mix loop of `process_mix`:
master output accumulators, de-interleave buffers, per-channel temp
buffers. -/
structure MixAcc where
  outL : List ℝ
  outR : List ℝ
  bufL : List ℝ
  bufR : List ℝ
  tmpL : List ℝ
  tmpR : List ℝ

/-- The mix loop of `UnifiedMixerProcessor::process_mix`
(lib.rs 948-988): mute skip, solo skip, de-interleave, silence skip,
channel-strip processing into the temp buffers, accumulation into the
master outputs.  Returns the processed strips and the final state. -/
def mixChannels (sample_rate : ℝ) (any_solo : Bool) (num_channels block_size : ℕ)
    (input : List ℝ) : ℕ → List ChannelStrip → MixAcc → List ChannelStrip × MixAcc
  | _, [], acc => ([], acc)
  | i, c :: cs, acc =>
      if c.mute then
        let r := mixChannels sample_rate any_solo num_channels block_size input (i + 1) cs acc
        (c :: r.1, r.2)
      else if any_solo && !c.solo then
        let r := mixChannels sample_rate any_solo num_channels block_size input (i + 1) cs acc
        (c :: r.1, r.2)
      else
        let dres := deint num_channels i block_size input acc.bufL acc.bufR
        let acc1 := { acc with bufL := dres.1, bufR := dres.2.1 }
        if !dres.2.2 then
          let r := mixChannels sample_rate any_solo num_channels block_size input (i + 1) cs acc1
          (c :: r.1, r.2)
        else
          let p := c.processBlock (dres.1.take block_size) (dres.2.1.take block_size)
            (acc1.tmpL.take block_size) (acc1.tmpR.take block_size) sample_rate
          let acc2 := { acc1 with
            tmpL := p.2.1 ++ acc1.tmpL.drop block_size,
            tmpR := p.2.2 ++ acc1.tmpR.drop block_size,
            outL := List.zipWith (· + ·) acc1.outL p.2.1,
            outR := List.zipWith (· + ·) acc1.outR p.2.2 }
          let r := mixChannels sample_rate any_solo num_channels block_size input (i + 1) cs acc2
          (p.1 :: r.1, r.2)

/-- `Vec::resize(n, 0.0)` when the vector is shorter than `n`. -/
def padTo (l : List ℝ) (n : ℕ) : List ℝ := l ++ List.replicate (n - l.length) 0

namespace Mixer

/-- The body of `UnifiedMixerProcessor::process_mix` after `sync_state`
and before `transport.advance` (lib.rs 924-988): zero the outputs,
resize the scratch buffers if the block grew, compute the solo state,
run the mix loop. -/
def mixStage (m : Mixer) (input : List ℝ) (block_size : ℕ) :
    Mixer × List ℝ × List ℝ :=
  let outL0 := List.replicate block_size (0 : ℝ)
  let outR0 := List.replicate block_size (0 : ℝ)
  let num_channels := m.channels.length
  let bufs :=
    if m.temp_l.length < block_size then
      (padTo m.temp_l block_size, padTo m.temp_r block_size,
       padTo m.in_l block_size, padTo m.in_r block_size)
    else (m.temp_l, m.temp_r, m.in_l, m.in_r)
  let any_solo := m.channels.any (fun c => c.solo)
  let r := mixChannels (m.sample_rate : ℝ) any_solo num_channels block_size input
    0 m.channels
    { outL := outL0, outR := outR0, bufL := bufs.2.2.1, bufR := bufs.2.2.2,
      tmpL := bufs.1, tmpR := bufs.2.1 }
  ({ m with channels := r.1, any_solo_active := any_solo,
            temp_l := r.2.tmpL, temp_r := r.2.tmpR,
            in_l := r.2.bufL, in_r := r.2.bufR },
   r.2.outL, r.2.outR)

/-- `UnifiedMixerProcessor::process_mix` (lib.rs 910-995): sync state,
mix, advance the transport by the block size. -/
def processMix (m : Mixer) (input : List ℝ) (block_size : ℕ) :
    Mixer × List ℝ × List ℝ :=
  let m1 := m.syncState
  let r := m1.mixStage input block_size
  ({ r.1 with transport := r.1.transport.advance block_size }, r.2.1, r.2.2)

end Mixer

/-! ## Per-channel contribution (for the C7 mix-sum characterization) -/

/-- Pointwise sum of two blocks (`output[s] += temp[s]`). -/
def addB (x y : List ℝ) : List ℝ := List.zipWith (· + ·) x y

/-- The de-interleaved left input of channel `i`
(index `s*num_channels*2 + i*2`, lib.rs 958). -/
def cleanInL (num_channels i block_size : ℕ) (input : List ℝ) : List ℝ :=
  (List.range block_size).map fun s => input.getD (s * num_channels * 2 + i * 2) 0

/-- The de-interleaved right input of channel `i`. -/
def cleanInR (num_channels i block_size : ℕ) (input : List ℝ) : List ℝ :=
  (List.range block_size).map fun s => input.getD (s * num_channels * 2 + i * 2 + 1) 0

/-- The `has_signal` amplitude check (lib.rs 964) over channel `i`'s
de-interleaved block. -/
def hasSigB (num_channels i block_size : ℕ) (input : List ℝ) : Bool :=
  (List.range block_size).any fun s =>
    if |input.getD (s * num_channels * 2 + i * 2) 0| > 0.0001 ∨
       |input.getD (s * num_channels * 2 + i * 2 + 1) 0| > 0.0001 then true else false

/-- The contribution of channel `i` to the master mix in `process_mix`:
zero when muted, zero when another channel is soloed and this one is
not, zero when the silence check fails, otherwise its processed
block. -/
def chContrib (sample_rate : ℝ) (any_solo : Bool) (num_channels block_size : ℕ)
    (input : List ℝ) (i : ℕ) (c : ChannelStrip) : List ℝ × List ℝ :=
  if c.mute || (any_solo && !c.solo) then
    (List.replicate block_size 0, List.replicate block_size 0)
  else if hasSigB num_channels i block_size input then
    let p := c.processBlock (cleanInL num_channels i block_size input)
      (cleanInR num_channels i block_size input)
      (List.replicate block_size 0) (List.replicate block_size 0) sample_rate
    (p.2.1, p.2.2)
  else (List.replicate block_size 0, List.replicate block_size 0)

/-- Sum of per-channel contributions from channel index `i` on. -/
def contribSum (sample_rate : ℝ) (any_solo : Bool) (num_channels block_size : ℕ)
    (input : List ℝ) : ℕ → List ChannelStrip → List ℝ × List ℝ
  | _, [] => (List.replicate block_size 0, List.replicate block_size 0)
  | i, c :: cs =>
      let rest := contribSum sample_rate any_solo num_channels block_size input (i + 1) cs
      let cc := chContrib sample_rate any_solo num_channels block_size input i c
      (addB cc.1 rest.1, addB cc.2 rest.2)

/-- Written from the spec's words, for comparison with the source's
`process_mix` (claim C7): the claimed contribution of a channel, with no
silence skip — every non-muted, solo-eligible channel contributes its
processed block. -/
def chContribClaim (sample_rate : ℝ) (any_solo : Bool) (num_channels block_size : ℕ)
    (input : List ℝ) (i : ℕ) (c : ChannelStrip) : List ℝ × List ℝ :=
  if c.mute || (any_solo && !c.solo) then
    (List.replicate block_size 0, List.replicate block_size 0)
  else
    let p := c.processBlock (cleanInL num_channels i block_size input)
      (cleanInR num_channels i block_size input)
      (List.replicate block_size 0) (List.replicate block_size 0) sample_rate
    (p.2.1, p.2.2)

/-- Written from the spec's words (claim C7): the claimed master mix as
the sum of every channel's claimed contribution. -/
def claimMixSum (sample_rate : ℝ) (any_solo : Bool) (num_channels block_size : ℕ)
    (input : List ℝ) : ℕ → List ChannelStrip → List ℝ × List ℝ
  | _, [] => (List.replicate block_size 0, List.replicate block_size 0)
  | i, c :: cs =>
      let rest := claimMixSum sample_rate any_solo num_channels block_size input (i + 1) cs
      let cc := chContribClaim sample_rate any_solo num_channels block_size input i c
      (addB cc.1 rest.1, addB cc.2 rest.2)

end

-- ### THEOREMS ###

/-! ## General lemmas about the embedding -/

namespace FVal

@[simp] theorem isFinite_fin (q : ℚ) : (fin q).isFinite = true := rfl

@[simp] theorem isFinite_zero : (0 : FVal).isFinite = true := rfl

/-- The comb filter's safety guard always yields a finite value. -/
theorem isFinite_guard (y : FVal) :
    (if y.isFinite then y else 0).isFinite = true := by
  cases y <;> simp [isFinite]

end FVal

namespace DelayLine

theorem getD_set_self (l : List α) (i : ℕ) (hi : i < l.length) (a dflt : α) :
    (l.set i a).getD i dflt = a := by
  simp [List.getD_eq_getElem?_getD, List.getElem?_set_self hi]

theorem getD_set_ne (l : List α) {i j : ℕ} (hne : i ≠ j) (a dflt : α) :
    (l.set i a).getD j dflt = l.getD j dflt := by
  simp [List.getD_eq_getElem?_getD, List.getElem?_set_ne hne]

@[simp] theorem length_write (d : DelayLine α) (v : α) :
    (d.write v).buffer.length = d.buffer.length :=
  List.length_set d.buffer d.index v

theorem index_write (d : DelayLine α) (v : α) :
    (d.write v).index = (d.index + 1) % d.buffer.length := rfl

theorem index_write_lt (d : DelayLine α) (v : α) (h : 0 < d.buffer.length) :
    (d.write v).index < d.buffer.length :=
  Nat.mod_lt _ h

@[simp] theorem length_writeAll (d : DelayLine α) (vs : List α) :
    (d.writeAll vs).buffer.length = d.buffer.length := by
  induction vs generalizing d with
  | nil => rfl
  | cons v vs ih => simpa [writeAll, List.foldl_cons] using ih (d.write v)

theorem index_writeAll (d : DelayLine α) (vs : List α)
    (hidx : d.index < d.buffer.length) :
    (d.writeAll vs).index = (d.index + vs.length) % d.buffer.length := by
  induction vs generalizing d with
  | nil => simp [writeAll, Nat.mod_eq_of_lt hidx]
  | cons v vs ih =>
      have hL : 0 < d.buffer.length := by omega
      have h1 : (d.write v).index < (d.write v).buffer.length := by
        rw [length_write]; exact index_write_lt d v hL
      have hrec := ih (d.write v) h1
      simp only [writeAll, List.foldl_cons] at hrec ⊢
      rw [hrec, length_write, index_write, Nat.mod_add_mod, List.length_cons]
      congr 1
      omega

theorem getD_writeAll_untouched [Zero α] (d : DelayLine α) (vs : List α)
    (hidx : d.index < d.buffer.length) (j : ℕ)
    (hj : ∀ k < vs.length, (d.index + k) % d.buffer.length ≠ j) :
    (d.writeAll vs).buffer.getD j 0 = d.buffer.getD j 0 := by
  induction vs generalizing d with
  | nil => rfl
  | cons v vs ih =>
      have hL : 0 < d.buffer.length := by omega
      have h1 : (d.write v).index < (d.write v).buffer.length := by
        rw [length_write]; exact index_write_lt d v hL
      have hj0 : d.index ≠ j := by
        have := hj 0 (by simp)
        simpa [Nat.mod_eq_of_lt hidx] using this
      have hj' : ∀ k < vs.length, ((d.write v).index + k) % (d.write v).buffer.length ≠ j := by
        intro k hk
        have := hj (k + 1) (by simpa using Nat.succ_lt_succ hk)
        rw [length_write, index_write, Nat.mod_add_mod]
        simpa [Nat.add_assoc, Nat.add_comm 1 k] using this
      have hrec := ih (d.write v) h1 hj'
      simp only [writeAll, List.foldl_cons] at *
      rw [hrec]
      exact getD_set_ne d.buffer hj0 v 0

end DelayLine

/-! ## Claim C1: DelayLine write/read_at round trip -/

/-- C1 counterexample: the claim is false as stated.  On a fresh
capacity-16 delay line, immediately after `write 3` the call `read_at 0`
returns `0` (the oldest slot), not `3`; and after one further write of
`7`, `read_at 1` returns `7`, not `3`.  The code's `read_at` convention
is 1-based with respect to the most recent write. -/
theorem delayLine_read_at_claim_counterexample :
    ¬ (((DelayLine.new ℚ 16).write 3).read_at 0 = 3) ∧
    ¬ ((((DelayLine.new ℚ 16).write 3).write 7).read_at 1 = 3) := by
  constructor <;> decide

/-- C1 (amended): `read_at` is 1-based with respect to the most recent
write: immediately after `write v`, `read_at 1` returns `v`, and after
`d` further writes of arbitrary values (`d < capacity`), `read_at (d+1)`
returns `v`.  (`read_at 0` aliases offset `capacity` and returns the
oldest slot.) -/
theorem delayLine_read_at_after_writes {α : Type} [Zero α]
    (d : DelayLine α) (v : α) (vs : List α)
    (hidx : d.index < d.buffer.length)
    (hlen : vs.length < d.buffer.length) :
    ((d.write v).writeAll vs).read_at (vs.length + 1) = v := by
  have hL : 0 < d.buffer.length := by omega
  have hwlen : (d.write v).buffer.length = d.buffer.length := DelayLine.length_write d v
  have hwidx : (d.write v).index < (d.write v).buffer.length := by
    rw [hwlen]; exact DelayLine.index_write_lt d v hL
  have hflen : ((d.write v).writeAll vs).buffer.length = d.buffer.length := by
    rw [DelayLine.length_writeAll, hwlen]
  have hfidx : ((d.write v).writeAll vs).index =
      (d.index + (1 + vs.length)) % d.buffer.length := by
    rw [DelayLine.index_writeAll (d.write v) vs hwidx, hwlen, DelayLine.index_write,
      Nat.mod_add_mod]
    congr 1
    omega
  unfold DelayLine.read_at
  rw [hflen, hfidx]
  have hidxeq :
      ((d.index + (1 + vs.length)) % d.buffer.length + d.buffer.length - (vs.length + 1)) %
        d.buffer.length = d.index := by
    have h1 : (d.index + (1 + vs.length)) % d.buffer.length + d.buffer.length -
        (vs.length + 1) =
        (d.index + (1 + vs.length)) % d.buffer.length +
          (d.buffer.length - (vs.length + 1)) := by
      have := Nat.mod_lt (d.index + (1 + vs.length)) hL
      omega
    rw [h1, Nat.mod_add_mod]
    have h2 : d.index + (1 + vs.length) + (d.buffer.length - (vs.length + 1)) =
        d.index + d.buffer.length := by omega
    rw [h2, Nat.add_mod_right, Nat.mod_eq_of_lt hidx]
  rw [hidxeq]
  have huntouched := DelayLine.getD_writeAll_untouched (d.write v) vs hwidx d.index ?_
  · rw [huntouched]
    show (d.buffer.set d.index v).getD d.index 0 = v
    exact DelayLine.getD_set_self d.buffer d.index hidx v 0
  · intro k hk
    rw [hwlen, DelayLine.index_write, Nat.mod_add_mod]
    intro hcontra
    have hmod : (d.index + (1 + k)) % d.buffer.length =
        (d.index + 0) % d.buffer.length := by
      rw [Nat.add_zero, Nat.mod_eq_of_lt hidx, ← Nat.add_assoc]
      exact hcontra
    have hcancel : (1 + k) % d.buffer.length = 0 % d.buffer.length :=
      Nat.ModEq.add_left_cancel' d.index hmod
    have hdvd : d.buffer.length ∣ (1 + k) := (Nat.modEq_zero_iff_dvd).mp hcancel
    have := Nat.le_of_dvd (by omega) hdvd
    omega

/-- C1 witness: on a fresh capacity-16 delay line, writing `3` followed
by `[7, 8]` makes `read_at 3` return `3`. -/
theorem delayLine_read_at_after_writes_witness :
    (DelayLine.new ℚ 16).index < (DelayLine.new ℚ 16).buffer.length ∧
    ([(7 : ℚ), 8] : List ℚ).length < (DelayLine.new ℚ 16).buffer.length ∧
    (((DelayLine.new ℚ 16).write 3).writeAll [7, 8]).read_at 3 = 3 :=
  ⟨by decide, by decide,
    delayLine_read_at_after_writes (DelayLine.new ℚ 16) 3 [7, 8]
      (by decide) (by decide)⟩

/-! ## Claim C8: read_interpolated at integer delay equals read_at -/

/-- C8: for a non-negative integer `k < capacity`, `read_interpolated k`
returns exactly the same sample as `read_at k`: the fractional part is
zero, so the interpolation term vanishes, and the branchy index
computation agrees with `read_at`'s modular expression. -/
theorem delayLine_read_interpolated_int {α : Type} [LinearOrderedField α] [FloorRing α]
    (d : DelayLine α) (k : ℕ)
    (hk : k < d.buffer.length) (hidx : d.index < d.buffer.length) :
    d.read_interpolated (k : α) = d.read_at k := by
  have hfloor : (⌊(k : α)⌋).toNat = k := by
    rw [Int.floor_natCast]
    exact Int.toNat_ofNat k
  have hidx1 : (if d.index ≥ k then d.index - k else d.index + d.buffer.length - k) =
      (d.index + d.buffer.length - k) % d.buffer.length := by
    by_cases h : d.index ≥ k
    · rw [if_pos h]
      have he : d.index + d.buffer.length - k = (d.index - k) + d.buffer.length := by omega
      rw [he, Nat.add_mod_right, Nat.mod_eq_of_lt (by omega)]
    · rw [if_neg h]
      rw [Nat.mod_eq_of_lt (by omega)]
  simp only [DelayLine.read_interpolated, DelayLine.read_at, hfloor,
    Nat.mod_eq_of_lt hk, sub_self, mul_zero, add_zero]
  rw [hidx1]

/-- C8 witness: on a capacity-16 delay line holding `3` then `7`,
`read_interpolated 2 = read_at 2 = 3`. -/
theorem delayLine_read_interpolated_int_witness :
    (2 < ((((DelayLine.new ℚ 16).write 3).write 7)).buffer.length) ∧
    ((((DelayLine.new ℚ 16).write 3).write 7)).index <
      ((((DelayLine.new ℚ 16).write 3).write 7)).buffer.length ∧
    (((DelayLine.new ℚ 16).write 3).write 7).read_interpolated (2 : ℚ) =
      (((DelayLine.new ℚ 16).write 3).write 7).read_at 2 :=
  ⟨by decide, by decide,
    delayLine_read_interpolated_int (((DelayLine.new ℚ 16).write 3).write 7) 2
      (by decide) (by decide)⟩

/-! ## Claim C9: comb-filter feedback writes are always finite -/

/-- C9: both `CombFilter::process` and `CombFilter::process_modulated`
guard the feedback value `input + filtered * feedback` with a
finiteness check that substitutes `0` for a non-finite value, so if the
comb's delay buffer contains only finite samples before the call it
contains only finite samples after it; a non-finite value never enters
the comb's delay buffer. -/
theorem combFilter_writes_finite (c : CombFilter)
    (input feedback damp1 damp2 : FVal) (mod_delay : ℚ)
    (hbuf : c.delay.buffer.all FVal.isFinite = true) :
    ((c.process input feedback damp1 damp2).1.delay.buffer.all FVal.isFinite = true) ∧
    ((c.process_modulated input feedback damp1 damp2 mod_delay).1.delay.buffer.all
        FVal.isFinite = true) := by
  rw [List.all_eq_true] at hbuf
  constructor <;>
  · rw [List.all_eq_true]
    intro x hx
    rcases List.mem_or_eq_of_mem_set hx with hmem | heq
    · exact hbuf x hmem
    · rw [heq]
      exact FVal.isFinite_guard _

/-- C9 witness: a fresh size-16 comb filter fed a non-finite input still
has an all-finite delay buffer after both processing variants. -/
theorem combFilter_writes_finite_witness :
    ((CombFilter.new 16).delay.buffer.all FVal.isFinite = true) ∧
    (((CombFilter.new 16).process FVal.nonfin 0 0 0).1.delay.buffer.all
        FVal.isFinite = true) ∧
    (((CombFilter.new 16).process_modulated FVal.nonfin 0 0 0 1).1.delay.buffer.all
        FVal.isFinite = true) :=
  ⟨by decide,
    (combFilter_writes_finite (CombFilter.new 16) FVal.nonfin 0 0 0 1 (by decide)).1,
    (combFilter_writes_finite (CombFilter.new 16) FVal.nonfin 0 0 0 1 (by decide)).2⟩

/-! ## Claim C3: seek synchronization and state flushing -/

namespace Transport

@[simp] theorem current_sample_set_loop (t : Transport) (e : Bool) (a b : ℚ) :
    (t.set_loop e a b).current_sample = t.current_sample := rfl

@[simp] theorem samples_per_tick_set_loop (t : Transport) (e : Bool) (a b : ℚ) :
    (t.set_loop e a b).samples_per_tick = t.samples_per_tick := rfl

@[simp] theorem current_sample_set_position (t : Transport) (n : ℕ) :
    (t.set_position_samples n).current_sample = n := rfl

@[simp] theorem samples_per_tick_set_position (t : Transport) (n : ℕ) :
    (t.set_position_samples n).samples_per_tick = t.samples_per_tick := rfl

end Transport

@[simp] theorem ChannelStrip.inserts_reset (c : ChannelStrip) :
    (ChannelStrip.reset c).inserts = c.inserts := rfl

/-- C3 counterexample: the claim is false as stated.  A mixer whose only
channel holds a `SimpleDelay` insert with a non-zero delay buffer,
synchronized with the seek trigger set and a valid target, keeps the
insert's delay buffer unchanged (non-zero): the flush resets only the
EQ filter histories and the compressor gain, not the insert delay
lines.  (The channel strip owns no reverb at all.) -/
theorem syncState_seek_counterexample :
    ((Mixer.syncState { Mixer.new 44100 1 with
        channels := [{ ChannelStrip.new 44100 with
          inserts := [⟨[⟨(1 : ℝ) :: List.replicate 15 0, 0⟩], 0, 0, 0, 44100⟩] }],
        shared := some ⟨5, 0, 1, 120, 0, 0, 44100, 0, 0, 0, 0⟩ }).channels.map
      (fun c => c.inserts.map (fun sd => sd.delays.map (fun dl => dl.buffer)))) =
      [[[(1 : ℝ) :: List.replicate 15 0]]] ∧
    ¬ ((1 : ℝ) :: List.replicate 15 0 = List.replicate 16 0) := by
  constructor
  · norm_num [Mixer.syncState, Mixer.new, Transport.new, Transport.recalculate_timing,
      ChannelStrip.reset, ChannelStrip.new]
  · intro h
    rw [show (16 : ℕ) = 15 + 1 from rfl, List.replicate_succ] at h
    simp at h

/-- C3 (amended): when the once-per-block synchronization observes the
seek trigger set to 1 with a non-negative seek target, it converts the
target from ticks to a sample position (`castU` of target times
samples-per-tick) and sets the Transport position to it, resets every
channel strip via `ChannelStrip::reset` — which flushes the EQ filter
histories and the compressor gain but leaves insert-effect delay-line
state untouched — and clears the seek trigger to 0. -/
theorem syncState_seek (m : Mixer) (st : SharedState)
    (hs : m.shared = some st) (htr : st.seek_trigger = 1) (hta : st.seek_target ≥ 0) :
    m.syncState.channels = m.channels.map ChannelStrip.reset ∧
    m.syncState.channels.map (fun c => c.inserts) = m.channels.map (fun c => c.inserts) ∧
    (∃ st', m.syncState.shared = some st' ∧ st'.seek_trigger = 0) ∧
    m.syncState.transport.current_sample =
      castU (st.seek_target * m.syncState.transport.samples_per_tick) := by
  have hch : m.syncState.channels = m.channels.map ChannelStrip.reset := by
    simp [Mixer.syncState, hs, htr, hta]
  refine ⟨hch, ?_, ?_, ?_⟩
  · rw [hch, List.map_map]
    congr 1
  · refine ⟨(m.syncState.shared).getD ⟨0, 0, 0, 0, 0, 0, 0, 0, 0, 0, 0⟩, ?_, ?_⟩ <;>
      simp [Mixer.syncState, hs, htr, hta]
  · simp [Mixer.syncState, hs, htr, hta]

/-- C3 witness: a one-channel mixer with the seek trigger set and target
0 has its seek trigger cleared and its channels reset by `syncState`. -/
theorem syncState_seek_witness :
    ({ Mixer.new 44100 1 with
        shared := some ⟨5, 0, 1, 120, 0, 0, 44100, 0, 0, 0, 0⟩ } : Mixer).syncState.channels =
      ({ Mixer.new 44100 1 with
        shared := some ⟨5, 0, 1, 120, 0, 0, 44100, 0, 0, 0, 0⟩ } : Mixer).channels.map
        ChannelStrip.reset ∧
    (∃ st', ({ Mixer.new 44100 1 with
        shared := some ⟨5, 0, 1, 120, 0, 0, 44100, 0, 0, 0, 0⟩ } : Mixer).syncState.shared =
        some st' ∧ st'.seek_trigger = 0) :=
  have h := syncState_seek
    ({ Mixer.new 44100 1 with
        shared := some ⟨5, 0, 1, 120, 0, 0, 44100, 0, 0, 0, 0⟩ } : Mixer)
    ⟨5, 0, 1, 120, 0, 0, 44100, 0, 0, 0, 0⟩ rfl rfl (by norm_num)
  ⟨h.1, h.2.2.1⟩

/-! ## Claim C10: process_mix with a null shared-state pointer -/

theorem Mixer.transport_mixStage (m : Mixer) (input : List ℝ) (bs : ℕ) :
    (m.mixStage input bs).1.transport = m.transport := rfl

/-- C10: when `set_shared_state_buffer` has never been called (null
shared pointer), `sync_state` returns immediately leaving the mixer —
transport play state, bpm and loop settings included — untouched, while
`process_mix` still zeroes, mixes and sums as usual (its outputs equal
the pure mix stage's outputs) and the final `Transport::advance` leaves
the position unchanged because the transport is not playing. -/
theorem processMix_null_shared (m : Mixer) (input : List ℝ) (block_size : ℕ)
    (hs : m.shared = none) (hp : m.transport.is_playing = false) :
    m.syncState = m ∧
    (m.processMix input block_size).1.transport = m.transport ∧
    (m.processMix input block_size).2 = (m.mixStage input block_size).2 := by
  have h1 : m.syncState = m := by simp [Mixer.syncState, hs]
  refine ⟨h1, ?_, ?_⟩
  · simp [Mixer.processMix, h1, Mixer.transport_mixStage, Transport.advance, hp]
  · simp [Mixer.processMix, h1]

/-- C10 witness: a freshly constructed one-channel mixer (null shared
pointer, stopped transport) satisfies the null-sync contract on a
concrete block. -/
theorem processMix_null_shared_witness :
    (Mixer.new 44100 1).shared = none ∧
    (Mixer.new 44100 1).transport.is_playing = false ∧
    ((Mixer.new 44100 1).syncState = Mixer.new 44100 1 ∧
     ((Mixer.new 44100 1).processMix [1, 1] 1).1.transport = (Mixer.new 44100 1).transport ∧
     ((Mixer.new 44100 1).processMix [1, 1] 1).2 = ((Mixer.new 44100 1).mixStage [1, 1] 1).2) :=
  ⟨rfl, rfl, processMix_null_shared (Mixer.new 44100 1) [1, 1] 1 rfl rfl⟩

/-! ## Claim C7: solo logic and the mix sum (supporting lemmas) -/

theorem eqRun_lengths (a b : ThreeBandEQ) (ls rs : List ℝ) :
    (eqRun a b ls rs).2.2.1.length = ls.length ∧
    (eqRun a b ls rs).2.2.2.length = rs.length := by
  induction ls generalizing a b rs with
  | nil => cases rs <;> simp [eqRun]
  | cons l ls ih =>
      cases rs with
      | nil => simp [eqRun]
      | cons r rs =>
          have := ih (a.process l).1 (b.process r).1 rs
          simp [eqRun, this.1, this.2]

@[simp] theorem length_eqRun_l (a b : ThreeBandEQ) (ls rs : List ℝ) :
    (eqRun a b ls rs).2.2.1.length = ls.length := (eqRun_lengths a b ls rs).1

@[simp] theorem length_eqRun_r (a b : ThreeBandEQ) (ls rs : List ℝ) :
    (eqRun a b ls rs).2.2.2.length = rs.length := (eqRun_lengths a b ls rs).2

theorem compRun_lengths (th ra sr cg ctl : ℝ) (ls rs : List ℝ) :
    (compRun th ra sr cg ctl ls rs).2.2.1.length = ls.length ∧
    (compRun th ra sr cg ctl ls rs).2.2.2.length = rs.length := by
  induction ls generalizing cg ctl rs with
  | nil => cases rs <;> simp [compRun]
  | cons l ls ih =>
      cases rs with
      | nil => simp [compRun]
      | cons r rs =>
          have := ih (compressionStep cg ctl l r th ra sr).1
            (compressionStep cg ctl l r th ra sr).2 rs
          simp [compRun, this.1, this.2]

@[simp] theorem length_compRun_l (th ra sr cg ctl : ℝ) (ls rs : List ℝ) :
    (compRun th ra sr cg ctl ls rs).2.2.1.length = ls.length :=
  (compRun_lengths th ra sr cg ctl ls rs).1

@[simp] theorem length_compRun_r (th ra sr cg ctl : ℝ) (ls rs : List ℝ) :
    (compRun th ra sr cg ctl ls rs).2.2.2.length = rs.length :=
  (compRun_lengths th ra sr cg ctl ls rs).2

theorem gainRun_lengths (gl gr : ℝ) (ls rs : List ℝ) (mL mR : ℝ) :
    (gainRun gl gr ls rs mL mR).1.length = ls.length ∧
    (gainRun gl gr ls rs mL mR).2.1.length = rs.length := by
  induction ls generalizing rs mL mR with
  | nil => cases rs <;> simp [gainRun]
  | cons l ls ih =>
      cases rs with
      | nil => simp [gainRun]
      | cons r rs =>
          have := ih rs (if |l * gl| > mL then |l * gl| else mL)
            (if |r * gr| > mR then |r * gr| else mR)
          simp [gainRun, this.1, this.2]

@[simp] theorem length_gainRun_l (gl gr : ℝ) (ls rs : List ℝ) (mL mR : ℝ) :
    (gainRun gl gr ls rs mL mR).1.length = ls.length := (gainRun_lengths gl gr ls rs mL mR).1

@[simp] theorem length_gainRun_r (gl gr : ℝ) (ls rs : List ℝ) (mL mR : ℝ) :
    (gainRun gl gr ls rs mL mR).2.1.length = rs.length := (gainRun_lengths gl gr ls rs mL mR).2

theorem processBlock_out_lengths (c : ChannelStrip) (inL inR oL oR : List ℝ) (sr : ℝ)
    (h2 : inR.length = inL.length) (h3 : oL.length = inL.length)
    (h4 : oR.length = inL.length) :
    (c.processBlock inL inR oL oR sr).2.1.length = inL.length ∧
    (c.processBlock inL inR oL oR sr).2.2.length = inL.length := by
  by_cases hm : c.mute
  · simp [ChannelStrip.processBlock, hm, h3, h4]
  · by_cases hea : c.eq_active <;> by_cases hca : c.comp_active <;>
      · simp [ChannelStrip.processBlock, hm, hea, hca, insertsStage, h2, h3, h4]

/-- The output blocks of `process_block` do not depend on the prior
contents of the output buffers, only on their lengths, when all buffers
have the input block's length. -/
theorem processBlock_out_irrel (c : ChannelStrip) (inL inR oL oR oL' oR' : List ℝ) (sr : ℝ)
    (h1 : oL.length = inL.length) (h2 : oR.length = inL.length)
    (h3 : oL'.length = inL.length) (h4 : oR'.length = inL.length) :
    c.processBlock inL inR oL oR sr = c.processBlock inL inR oL' oR' sr := by
  by_cases hm : c.mute
  · simp [ChannelStrip.processBlock, hm, h1, h2, h3, h4]
  · have d1 : oL.drop (min oL.length inL.length) = [] := List.drop_eq_nil_of_le (by omega)
    have d2 : oR.drop (min oL.length inL.length) = [] := List.drop_eq_nil_of_le (by omega)
    have d3 : oL'.drop (min oL'.length inL.length) = [] := List.drop_eq_nil_of_le (by omega)
    have d4 : oR'.drop (min oL'.length inL.length) = [] := List.drop_eq_nil_of_le (by omega)
    have hmin : min oL.length inL.length = min oL'.length inL.length := by omega
    simp only [ChannelStrip.processBlock, hm, if_false, Bool.false_eq_true, insertsStage]
    rw [hmin] at d1 d2 ⊢
    rw [d1, d2, d3, d4]

theorem addB_length (x y : List ℝ) : (addB x y).length = min x.length y.length := by
  simp [addB]

theorem addB_zero_left (x : List ℝ) (n : ℕ) (h : x.length = n) :
    addB (List.replicate n 0) x = x := by
  induction x generalizing n with
  | nil => subst h; simp [addB]
  | cons a x ih =>
      subst h
      simp only [List.length_cons, List.replicate_succ, addB, List.zipWith_cons_cons, zero_add]
      exact congrArg (a :: ·) (ih x.length rfl)

theorem addB_zero_right (x : List ℝ) (n : ℕ) (h : x.length = n) :
    addB x (List.replicate n 0) = x := by
  induction x generalizing n with
  | nil => subst h; simp [addB]
  | cons a x ih =>
      subst h
      simp only [List.length_cons, List.replicate_succ, addB, List.zipWith_cons_cons, add_zero]
      exact congrArg (a :: ·) (ih x.length rfl)

theorem addB_assoc (x y z : List ℝ) : addB (addB x y) z = addB x (addB y z) := by
  induction x generalizing y z with
  | nil => simp [addB]
  | cons a x ih =>
      cases y with
      | nil => simp [addB]
      | cons b y =>
          cases z with
          | nil => simp [addB]
          | cons c z =>
              have ih' := ih y z
              simp only [addB, List.zipWith_cons_cons] at ih' ⊢
              rw [add_assoc, ih']

/-- With the interleaved input long enough for the whole block, every
per-sample index of channel `i` is in range. -/
theorem idx_bound (nc bs i s L : ℕ) (hIn : 2 * nc * bs ≤ L) (hi : i < nc) (hs : s < bs) :
    s * nc * 2 + i * 2 + 1 < L := by
  have h1 : nc * (s + 1) ≤ nc * bs := Nat.mul_le_mul_left nc hs
  have h2 : nc * (s + 1) = nc * s + nc := Nat.mul_succ nc s
  have h3 : s * nc = nc * s := Nat.mul_comm s nc
  have h4 : 2 * nc * bs = 2 * (nc * bs) := Nat.mul_assoc 2 nc bs
  omega

theorem getD_eq_getElem (l : List α) (n : ℕ) (h : n < l.length) (d : α) :
    l.getD n d = l[n] := by
  rw [List.getD_eq_getElem?_getD, List.getElem?_eq_getElem h]
  rfl

theorem deintFrom_lengths (nc i : ℕ) (input : List ℝ) (ss : List ℕ)
    (bL bR : List ℝ) (flag : Bool) :
    (deintFrom nc i input ss bL bR flag).1.length = bL.length ∧
    (deintFrom nc i input ss bL bR flag).2.1.length = bR.length := by
  induction ss generalizing bL bR flag with
  | nil => simp [deintFrom]
  | cons s ss ih =>
      by_cases hb : s * nc * 2 + i * 2 + 1 < input.length
      · simp only [deintFrom, if_pos hb]
        have := ih (bL.set s (input.getD (s * nc * 2 + i * 2) 0))
          (bR.set s (input.getD (s * nc * 2 + i * 2 + 1) 0))
          (if |input.getD (s * nc * 2 + i * 2) 0| > 0.0001 ∨
              |input.getD (s * nc * 2 + i * 2 + 1) 0| > 0.0001 then true else flag)
        simpa using this
      · simp only [deintFrom, if_neg hb]
        exact ih bL bR flag

theorem deintFrom_getD_not_mem (nc i : ℕ) (input : List ℝ) (ss : List ℕ)
    (bL bR : List ℝ) (flag : Bool) (j : ℕ) (hj : j ∉ ss) :
    (deintFrom nc i input ss bL bR flag).1.getD j 0 = bL.getD j 0 ∧
    (deintFrom nc i input ss bL bR flag).2.1.getD j 0 = bR.getD j 0 := by
  induction ss generalizing bL bR flag with
  | nil => simp [deintFrom]
  | cons s ss ih =>
      have hjs : s ≠ j := fun h => hj (h ▸ List.mem_cons_self s ss)
      have hj' : j ∉ ss := fun h => hj (List.mem_cons_of_mem s h)
      by_cases hb : s * nc * 2 + i * 2 + 1 < input.length
      · simp only [deintFrom, if_pos hb]
        have := ih (bL.set s (input.getD (s * nc * 2 + i * 2) 0))
          (bR.set s (input.getD (s * nc * 2 + i * 2 + 1) 0))
          (if |input.getD (s * nc * 2 + i * 2) 0| > 0.0001 ∨
              |input.getD (s * nc * 2 + i * 2 + 1) 0| > 0.0001 then true else flag) hj'
        rw [this.1, this.2, DelayLine.getD_set_ne _ hjs, DelayLine.getD_set_ne _ hjs]
        exact ⟨rfl, rfl⟩
      · simp only [deintFrom, if_neg hb]
        exact ih bL bR flag hj'

theorem deintFrom_getD_mem (nc i : ℕ) (input : List ℝ) (ss : List ℕ)
    (bL bR : List ℝ) (flag : Bool) (j : ℕ)
    (hnd : ss.Nodup) (hj : j ∈ ss) (hjL : j < bL.length) (hjR : j < bR.length)
    (hb : j * nc * 2 + i * 2 + 1 < input.length) :
    (deintFrom nc i input ss bL bR flag).1.getD j 0 =
      input.getD (j * nc * 2 + i * 2) 0 ∧
    (deintFrom nc i input ss bL bR flag).2.1.getD j 0 =
      input.getD (j * nc * 2 + i * 2 + 1) 0 := by
  induction ss generalizing bL bR flag with
  | nil => cases hj
  | cons s ss ih =>
      rcases List.mem_cons.mp hj with rfl | hj'
      · have hs' : j ∉ ss := (List.nodup_cons.mp hnd).1
        simp only [deintFrom, if_pos hb]
        have hnm := deintFrom_getD_not_mem nc i input ss
          (bL.set j (input.getD (j * nc * 2 + i * 2) 0))
          (bR.set j (input.getD (j * nc * 2 + i * 2 + 1) 0))
          (if |input.getD (j * nc * 2 + i * 2) 0| > 0.0001 ∨
              |input.getD (j * nc * 2 + i * 2 + 1) 0| > 0.0001 then true else flag) j hs'
        rw [hnm.1, hnm.2]
        exact ⟨DelayLine.getD_set_self _ _ hjL _ _, DelayLine.getD_set_self _ _ hjR _ _⟩
      · have hnd' := (List.nodup_cons.mp hnd).2
        by_cases hbs : s * nc * 2 + i * 2 + 1 < input.length
        · simp only [deintFrom, if_pos hbs]
          exact ih (bL.set s (input.getD (s * nc * 2 + i * 2) 0))
            (bR.set s (input.getD (s * nc * 2 + i * 2 + 1) 0))
            (if |input.getD (s * nc * 2 + i * 2) 0| > 0.0001 ∨
                |input.getD (s * nc * 2 + i * 2 + 1) 0| > 0.0001 then true else flag)
            hnd' hj' (by rw [List.length_set]; exact hjL)
            (by rw [List.length_set]; exact hjR)
        · simp only [deintFrom, if_neg hbs]
          exact ih bL bR flag hnd' hj' hjL hjR

theorem deintFrom_flag (nc i : ℕ) (input : List ℝ) (ss : List ℕ)
    (bL bR : List ℝ) (flag : Bool)
    (hb : ∀ s ∈ ss, s * nc * 2 + i * 2 + 1 < input.length) :
    (deintFrom nc i input ss bL bR flag).2.2 =
      (flag || ss.any (fun s =>
        if |input.getD (s * nc * 2 + i * 2) 0| > 0.0001 ∨
           |input.getD (s * nc * 2 + i * 2 + 1) 0| > 0.0001 then true else false)) := by
  induction ss generalizing bL bR flag with
  | nil => simp [deintFrom]
  | cons s ss ih =>
      have hbs := hb s (List.mem_cons_self s ss)
      simp only [deintFrom, if_pos hbs]
      rw [ih _ _ _ (fun t ht => hb t (List.mem_cons_of_mem s ht)), List.any_cons]
      by_cases hc : |input.getD (s * nc * 2 + i * 2) 0| > 0.0001 ∨
          |input.getD (s * nc * 2 + i * 2 + 1) 0| > 0.0001
      · rw [if_pos hc, if_pos hc]
        cases flag <;> simp
      · rw [if_neg hc, if_neg hc, Bool.false_or]

theorem deint_spec (nc i bs : ℕ) (input : List ℝ) (bL bR : List ℝ)
    (hb : ∀ s < bs, s * nc * 2 + i * 2 + 1 < input.length)
    (hlL : bs ≤ bL.length) (hlR : bs ≤ bR.length) :
    (deint nc i bs input bL bR).1.take bs = cleanInL nc i bs input ∧
    (deint nc i bs input bL bR).2.1.take bs = cleanInR nc i bs input ∧
    (deint nc i bs input bL bR).2.2 = hasSigB nc i bs input := by
  have hl1 := (deintFrom_lengths nc i input (List.range bs) bL bR false).1
  have hl2 := (deintFrom_lengths nc i input (List.range bs) bL bR false).2
  refine ⟨?_, ?_, ?_⟩
  · apply List.ext_getElem
    · simp only [List.length_take, cleanInL, List.length_map, List.length_range]
      show min bs (deintFrom nc i input (List.range bs) bL bR false).1.length = bs
      omega
    · intro n h1 h2
      have hn : n < bs := by simpa [cleanInL] using h2
      have hres : n < (deintFrom nc i input (List.range bs) bL bR false).1.length := by omega
      have hmem := deintFrom_getD_mem nc i input (List.range bs) bL bR false n
        (List.nodup_range bs) (List.mem_range.mpr hn) (by omega) (by omega) (hb n hn)
      rw [List.getElem_take]
      simp only [deint]
      rw [← getD_eq_getElem _ n hres 0, hmem.1]
      simp [cleanInL]
  · apply List.ext_getElem
    · simp only [List.length_take, cleanInR, List.length_map, List.length_range]
      show min bs (deintFrom nc i input (List.range bs) bL bR false).2.1.length = bs
      omega
    · intro n h1 h2
      have hn : n < bs := by simpa [cleanInR] using h2
      have hres : n < (deintFrom nc i input (List.range bs) bL bR false).2.1.length := by omega
      have hmem := deintFrom_getD_mem nc i input (List.range bs) bL bR false n
        (List.nodup_range bs) (List.mem_range.mpr hn) (by omega) (by omega) (hb n hn)
      rw [List.getElem_take]
      simp only [deint]
      rw [← getD_eq_getElem _ n hres 0, hmem.2]
      simp [cleanInR]
  · rw [show (deint nc i bs input bL bR).2.2 =
        (deintFrom nc i input (List.range bs) bL bR false).2.2 from rfl,
      deintFrom_flag nc i input (List.range bs) bL bR false
        (fun t ht => hb t (List.mem_range.mp ht))]
    simp [hasSigB]

theorem chContrib_lengths (sr : ℝ) (soloOn : Bool) (nc bs : ℕ) (input : List ℝ)
    (i : ℕ) (c : ChannelStrip) :
    (chContrib sr soloOn nc bs input i c).1.length = bs ∧
    (chContrib sr soloOn nc bs input i c).2.length = bs := by
  have hcl : (cleanInL nc i bs input).length = bs := by simp [cleanInL]
  have hcr : (cleanInR nc i bs input).length = bs := by simp [cleanInR]
  have hpl := processBlock_out_lengths c (cleanInL nc i bs input) (cleanInR nc i bs input)
    (List.replicate bs 0) (List.replicate bs 0) sr (by simp [hcl, hcr])
    (by simp [hcl]) (by simp [hcl])
  unfold chContrib
  by_cases h1 : (c.mute || (soloOn && !c.solo)) = true
  · simp [h1]
  · by_cases h2 : hasSigB nc i bs input = true
    · simp only [h1, h2, Bool.false_eq_true, if_true, if_false]
      exact ⟨by rw [hpl.1, hcl], by rw [hpl.2, hcl]⟩
    · simp [h1, h2]

theorem contribSum_lengths (sr : ℝ) (soloOn : Bool) (nc bs : ℕ) (input : List ℝ)
    (cs : List ChannelStrip) : ∀ (i : ℕ),
    (contribSum sr soloOn nc bs input i cs).1.length = bs ∧
    (contribSum sr soloOn nc bs input i cs).2.length = bs := by
  induction cs with
  | nil => intro i; simp [contribSum]
  | cons c cs ih =>
      intro i
      have h1 := chContrib_lengths sr soloOn nc bs input i c
      have h2 := ih (i + 1)
      simp only [contribSum]
      constructor <;> · rw [addB_length]; omega

theorem mixChannels_sum (sr : ℝ) (soloOn : Bool) (nc bs : ℕ) (input : List ℝ)
    (hIn : 2 * nc * bs ≤ input.length) (cs : List ChannelStrip) :
    ∀ (i : ℕ) (acc : MixAcc),
    i + cs.length ≤ nc →
    acc.outL.length = bs → acc.outR.length = bs →
    bs ≤ acc.bufL.length → bs ≤ acc.bufR.length →
    bs ≤ acc.tmpL.length → bs ≤ acc.tmpR.length →
    (mixChannels sr soloOn nc bs input i cs acc).2.outL =
      addB acc.outL (contribSum sr soloOn nc bs input i cs).1 ∧
    (mixChannels sr soloOn nc bs input i cs acc).2.outR =
      addB acc.outR (contribSum sr soloOn nc bs input i cs).2 := by
  induction cs with
  | nil =>
      intro i acc _ hoL hoR _ _ _ _
      simp only [mixChannels, contribSum]
      exact ⟨(addB_zero_right _ _ hoL).symm, (addB_zero_right _ _ hoR).symm⟩
  | cons c cs ih =>
      intro i acc hn hoL hoR hbL hbR htL htR
      have hn' : i + 1 + cs.length ≤ nc := by
        simp only [List.length_cons] at hn; omega
      have hi : i < nc := by
        simp only [List.length_cons] at hn; omega
      have hrest := contribSum_lengths sr soloOn nc bs input cs (i + 1)
      by_cases hm : c.mute = true
      · have hc : chContrib sr soloOn nc bs input i c =
            (List.replicate bs 0, List.replicate bs 0) := by simp [chContrib, hm]
        have hrec := ih (i + 1) acc hn' hoL hoR hbL hbR htL htR
        simp only [mixChannels, hm, if_true, contribSum, hc]
        exact ⟨by rw [hrec.1, addB_zero_left _ _ hrest.1],
               by rw [hrec.2, addB_zero_left _ _ hrest.2]⟩
      · have hm' : c.mute = false := by simpa using hm
        by_cases hss : (soloOn && !c.solo) = true
        · have hc : chContrib sr soloOn nc bs input i c =
              (List.replicate bs 0, List.replicate bs 0) := by simp [chContrib, hm', hss]
          have hrec := ih (i + 1) acc hn' hoL hoR hbL hbR htL htR
          simp only [mixChannels, hm', hss, Bool.false_eq_true, if_false, if_true,
            contribSum, hc]
          exact ⟨by rw [hrec.1, addB_zero_left _ _ hrest.1],
                 by rw [hrec.2, addB_zero_left _ _ hrest.2]⟩
        · have hss' : (soloOn && !c.solo) = false := by simpa using hss
          have hbnd : ∀ s < bs, s * nc * 2 + i * 2 + 1 < input.length :=
            fun s hs => idx_bound nc bs i s _ hIn hi hs
          have dspec := deint_spec nc i bs input acc.bufL acc.bufR hbnd hbL hbR
          have dl1 : (deint nc i bs input acc.bufL acc.bufR).1.length = acc.bufL.length :=
            (deintFrom_lengths nc i input (List.range bs) acc.bufL acc.bufR false).1
          have dl2 : (deint nc i bs input acc.bufL acc.bufR).2.1.length = acc.bufR.length :=
            (deintFrom_lengths nc i input (List.range bs) acc.bufL acc.bufR false).2
          by_cases hsg : (deint nc i bs input acc.bufL acc.bufR).2.2 = true
          · -- signal present: the channel is processed and accumulated
            have hsigB : hasSigB nc i bs input = true := by rw [← dspec.2.2]; exact hsg
            have hcl : (cleanInL nc i bs input).length = bs := by simp [cleanInL]
            have hcr : (cleanInR nc i bs input).length = bs := by simp [cleanInR]
            have hirrel := processBlock_out_irrel c (cleanInL nc i bs input)
              (cleanInR nc i bs input)
              (acc.tmpL.take bs) (acc.tmpR.take bs)
              (List.replicate bs 0) (List.replicate bs 0) sr
              (by simp [hcl]; omega) (by simp [hcl]; omega)
              (by simp [hcl]) (by simp [hcl])
            have hP := processBlock_out_lengths c (cleanInL nc i bs input)
              (cleanInR nc i bs input) (List.replicate bs 0) (List.replicate bs 0) sr
              (by simp [hcl, hcr]) (by simp [hcl]) (by simp [hcl])
            have hc : chContrib sr soloOn nc bs input i c =
                ((c.processBlock (cleanInL nc i bs input) (cleanInR nc i bs input)
                  (List.replicate bs 0) (List.replicate bs 0) sr).2.1,
                 (c.processBlock (cleanInL nc i bs input) (cleanInR nc i bs input)
                  (List.replicate bs 0) (List.replicate bs 0) sr).2.2) := by
              simp [chContrib, hm', hss', hsigB]
            have hptake : c.processBlock ((deint nc i bs input acc.bufL acc.bufR).1.take bs)
                ((deint nc i bs input acc.bufL acc.bufR).2.1.take bs)
                (acc.tmpL.take bs) (acc.tmpR.take bs) sr =
                c.processBlock (cleanInL nc i bs input) (cleanInR nc i bs input)
                  (List.replicate bs 0) (List.replicate bs 0) sr := by
              rw [dspec.1, dspec.2.1]
              exact hirrel
            simp only [mixChannels, hm', hss', Bool.false_eq_true, if_false, hsg,
              Bool.not_true, contribSum, hc]
            rw [hptake]
            set P := c.processBlock (cleanInL nc i bs input) (cleanInR nc i bs input)
              (List.replicate bs 0) (List.replicate bs 0) sr with hPdef
            have hacc2 := ih (i + 1)
              { outL := List.zipWith (· + ·) acc.outL P.2.1,
                outR := List.zipWith (· + ·) acc.outR P.2.2,
                bufL := (deint nc i bs input acc.bufL acc.bufR).1,
                bufR := (deint nc i bs input acc.bufL acc.bufR).2.1,
                tmpL := P.2.1 ++ acc.tmpL.drop bs,
                tmpR := P.2.2 ++ acc.tmpR.drop bs } hn'
              (by simp only [addB] at *; simp [hP.1, hcl, hoL])
              (by simp only [addB] at *; simp [hP.2, hcl, hoR])
              (by simp [dl1]; omega) (by simp [dl2]; omega)
              (by simp [hP.1, hcl]) (by simp [hP.2, hcl])
            refine ⟨?_, ?_⟩
            · rw [hacc2.1]
              show addB (addB acc.outL P.2.1) (contribSum sr soloOn nc bs input (i + 1) cs).1 =
                addB acc.outL (addB P.2.1 (contribSum sr soloOn nc bs input (i + 1) cs).1)
              exact addB_assoc _ _ _
            · rw [hacc2.2]
              show addB (addB acc.outR P.2.2) (contribSum sr soloOn nc bs input (i + 1) cs).2 =
                addB acc.outR (addB P.2.2 (contribSum sr soloOn nc bs input (i + 1) cs).2)
              exact addB_assoc _ _ _
          · -- silence skip: no contribution
            have hsg' : (deint nc i bs input acc.bufL acc.bufR).2.2 = false := by
              simpa using hsg
            have hsigB : hasSigB nc i bs input = false := by rw [← dspec.2.2]; exact hsg'
            have hc : chContrib sr soloOn nc bs input i c =
                (List.replicate bs 0, List.replicate bs 0) := by
              simp [chContrib, hm', hss', hsigB]
            have hrec := ih (i + 1)
              { acc with bufL := (deint nc i bs input acc.bufL acc.bufR).1,
                         bufR := (deint nc i bs input acc.bufL acc.bufR).2.1 } hn'
              hoL hoR (by simp [dl1]; omega) (by simp [dl2]; omega) htL htR
            simp only [mixChannels, hm', hss', Bool.false_eq_true, if_false, hsg',
              Bool.not_false, if_true, contribSum, hc]
            exact ⟨by rw [hrec.1, addB_zero_left _ _ hrest.1],
                   by rw [hrec.2, addB_zero_left _ _ hrest.2]⟩

/-- C7 counterexample: the claim is false as stated.  With no channel
soloed and one non-muted channel with gain 100, the input block
`[0.0001, 0.0001]` (at or below the silence threshold) produces the mix
output `([0], [0])`, while the claimed sum of processed blocks is
`([0.01], [0.01])`: the silence check excludes a non-muted channel whose
processed block is non-zero. -/
theorem processMix_silence_skip_counterexample :
    (({ Mixer.new 44100 1 with
        channels := [{ ChannelStrip.new 44100 with gain := 100 }],
        temp_l := [0], temp_r := [0], in_l := [0], in_r := [0] } : Mixer).processMix
      [1/10000, 1/10000] 1).2 = ([0], [0]) ∧
    claimMixSum ((44100 : ℚ) : ℝ) false 1 1 [1/10000, 1/10000] 0
      [{ ChannelStrip.new 44100 with gain := 100 }] = ([1/100], [1/100]) ∧
    ¬ ((([0], [0]) : List ℝ × List ℝ) = ([1/100], [1/100])) := by
  refine ⟨?_, ?_, ?_⟩
  · norm_num [Mixer.processMix, Mixer.syncState, Mixer.mixStage, Mixer.new,
      mixChannels, deint, deintFrom, List.range_succ, ChannelStrip.new,
      abs_of_nonneg]
  · norm_num [claimMixSum, chContribClaim, ChannelStrip.new, ChannelStrip.processBlock,
      insertsStage, cleanInL, cleanInR, List.range_succ, panGains, gainRun, addB]
  · norm_num

/-- C7 (corrected): in `process_mix` (with the shared pointer null so
synchronization is a no-op and the input long enough for the whole
block), the master output is exactly the sum of per-channel
contributions, where a channel contributes its processed block when it
is not muted, not excluded by the solo logic, and its de-interleaved
input block is non-silent (some sample above the 0.0001 amplitude
threshold), and contributes zero otherwise; in particular, when any
channel is soloed every channel with solo=false contributes zero. -/
theorem processMix_solo_silence_sum (m : Mixer) (input : List ℝ) (block_size : ℕ)
    (hs : m.shared = none)
    (hIn : 2 * m.channels.length * block_size ≤ input.length)
    (h1 : m.in_l.length = m.temp_l.length)
    (h2 : m.in_r.length = m.temp_l.length)
    (h3 : m.temp_r.length = m.temp_l.length) :
    (m.processMix input block_size).2 =
      contribSum (m.sample_rate : ℝ) (m.channels.any fun c => c.solo)
        m.channels.length block_size input 0 m.channels ∧
    (∀ i c, (m.channels.any fun c => c.solo) = true → c.solo = false →
      chContrib (m.sample_rate : ℝ) (m.channels.any fun c => c.solo)
        m.channels.length block_size input i c =
        (List.replicate block_size 0, List.replicate block_size 0)) := by
  have hsync : m.syncState = m := by simp [Mixer.syncState, hs]
  constructor
  · have hmix : (m.processMix input block_size).2 = (m.mixStage input block_size).2 := by
      simp [Mixer.processMix, hsync]
    rw [hmix]
    by_cases hr : m.temp_l.length < block_size
    · have key := mixChannels_sum ((m.sample_rate : ℚ) : ℝ)
        (m.channels.any fun c => c.solo) m.channels.length block_size input hIn
        m.channels 0
        ⟨List.replicate block_size 0, List.replicate block_size 0,
         padTo m.in_l block_size, padTo m.in_r block_size,
         padTo m.temp_l block_size, padTo m.temp_r block_size⟩
        (by omega) (by simp) (by simp)
        (by simp [padTo]; omega) (by simp [padTo]; omega)
        (by simp [padTo]; omega) (by simp [padTo]; omega)
      simp only [Mixer.mixStage, if_pos hr]
      refine Prod.ext ?_ ?_
      · exact key.1.trans (addB_zero_left _ _
          (contribSum_lengths _ _ _ _ _ _ 0).1)
      · exact key.2.trans (addB_zero_left _ _
          (contribSum_lengths _ _ _ _ _ _ 0).2)
    · have key := mixChannels_sum ((m.sample_rate : ℚ) : ℝ)
        (m.channels.any fun c => c.solo) m.channels.length block_size input hIn
        m.channels 0
        ⟨List.replicate block_size 0, List.replicate block_size 0,
         m.in_l, m.in_r, m.temp_l, m.temp_r⟩
        (by omega) (by simp) (by simp)
        (by show block_size ≤ m.in_l.length; omega)
        (by show block_size ≤ m.in_r.length; omega)
        (by show block_size ≤ m.temp_l.length; omega)
        (by show block_size ≤ m.temp_r.length; omega)
      simp only [Mixer.mixStage, if_neg hr]
      refine Prod.ext ?_ ?_
      · exact key.1.trans (addB_zero_left _ _
          (contribSum_lengths _ _ _ _ _ _ 0).1)
      · exact key.2.trans (addB_zero_left _ _
          (contribSum_lengths _ _ _ _ _ _ 0).2)
  · intro i c ha hc
    simp [chContrib, ha, hc]

/-- C7 witness: a fresh one-channel mixer over a two-sample interleaved
input satisfies the mix-sum characterization. -/
theorem processMix_solo_silence_sum_witness :
    ((Mixer.new 44100 1).processMix [1, 1] 1).2 =
      contribSum (((Mixer.new 44100 1).sample_rate : ℚ) : ℝ)
        ((Mixer.new 44100 1).channels.any fun c => c.solo)
        (Mixer.new 44100 1).channels.length 1 [1, 1] 0 (Mixer.new 44100 1).channels :=
  (processMix_solo_silence_sum (Mixer.new 44100 1) [1, 1] 1 rfl
    (by simp [Mixer.new]) rfl rfl rfl).1

/-! ## Claim C4: Transport::advance and loop wraparound -/

/-- C4: `advance n` adds `n` to the sample position only while playing;
with looping enabled and `loop_end_tick > loop_start_tick`, when the
advanced position reaches or passes the loop-end sample and the computed
loop length is positive, the position becomes
`loop_start_sample + overshoot % loop_len`, which lies in
`[loop_start_sample, loop_end_sample)`; a zero loop length skips the
wrap. -/
theorem transport_advance_spec (t : Transport) (n : ℕ) :
    (t.is_playing = false → t.advance n = t) ∧
    (t.is_playing = true →
      (¬(t.loop_enabled = true ∧ t.loop_end_tick > t.loop_start_tick) →
        (t.advance n).current_sample = t.current_sample + n) ∧
      (t.loop_enabled = true → t.loop_end_tick > t.loop_start_tick →
        (t.current_sample + n < castU (t.loop_end_tick * t.samples_per_tick) →
          (t.advance n).current_sample = t.current_sample + n) ∧
        (castU (t.loop_end_tick * t.samples_per_tick) ≤ t.current_sample + n →
          castU (t.loop_end_tick * t.samples_per_tick) -
            castU (t.loop_start_tick * t.samples_per_tick) = 0 →
          (t.advance n).current_sample = t.current_sample + n) ∧
        (castU (t.loop_end_tick * t.samples_per_tick) ≤ t.current_sample + n →
          0 < castU (t.loop_end_tick * t.samples_per_tick) -
            castU (t.loop_start_tick * t.samples_per_tick) →
          (t.advance n).current_sample =
            castU (t.loop_start_tick * t.samples_per_tick) +
              (t.current_sample + n - castU (t.loop_end_tick * t.samples_per_tick)) %
                (castU (t.loop_end_tick * t.samples_per_tick) -
                  castU (t.loop_start_tick * t.samples_per_tick)) ∧
          castU (t.loop_start_tick * t.samples_per_tick) ≤ (t.advance n).current_sample ∧
          (t.advance n).current_sample < castU (t.loop_end_tick * t.samples_per_tick)))) := by
  refine ⟨fun hp => ?_, fun hp => ⟨fun hnl => ?_, fun hle hgt =>
    ⟨fun hlt => ?_, fun hge h0 => ?_, fun hge hpos => ?_⟩⟩⟩
  · simp [Transport.advance, hp]
  · simp [Transport.advance, hp, hnl]
  · simp [Transport.advance, hp, hle, hgt, Nat.not_le.mpr hlt]
  · simp [Transport.advance, hp, hle, hgt, hge, h0]
  · have hmod := Nat.mod_lt
      (t.current_sample + n - castU (t.loop_end_tick * t.samples_per_tick)) hpos
    have heq : (t.advance n).current_sample =
        castU (t.loop_start_tick * t.samples_per_tick) +
          (t.current_sample + n - castU (t.loop_end_tick * t.samples_per_tick)) %
            (castU (t.loop_end_tick * t.samples_per_tick) -
              castU (t.loop_start_tick * t.samples_per_tick)) := by
      simp [Transport.advance, hp, hle, hgt, hge, hpos]
    refine ⟨heq, ?_, ?_⟩ <;> omega

/-! ## Claim C6: a muted channel strip outputs exact silence -/

/-- C6: with `mute` set, `process_block` writes `0.0` to every sample of
both output blocks and returns, leaving the strip state untouched,
regardless of gain, pan, EQ, compression, inserts, or the input
contents. -/
theorem channelStrip_mute_silence (s : ChannelStrip)
    (input_l input_r output_l output_r : List ℝ) (sample_rate : ℝ)
    (hm : s.mute = true) :
    s.processBlock input_l input_r output_l output_r sample_rate =
      (s, List.replicate output_l.length 0, List.replicate output_r.length 0) := by
  simp [ChannelStrip.processBlock, hm]

/-- C6 witness: a muted strip with gain 5 over nonzero inputs and dirty
output buffers produces all-zero blocks. -/
theorem channelStrip_mute_silence_witness :
    ({ ChannelStrip.new 44100 with mute := true, gain := 5 } : ChannelStrip).mute = true ∧
    ({ ChannelStrip.new 44100 with mute := true, gain := 5 } : ChannelStrip).processBlock
        [1, 2] [3, 4] [9, 9] [8, 8] 44100 =
      ({ ChannelStrip.new 44100 with mute := true, gain := 5 },
        List.replicate 2 0, List.replicate 2 0) :=
  ⟨rfl, channelStrip_mute_silence _ [1, 2] [3, 4] [9, 9] [8, 8] 44100 rfl⟩

/-! ## Claim C5: pan gains at center -/

/-- C5 counterexample: the claim is false as stated.  At `pan = 0`,
`process_block` skips the pan-law computation entirely and keeps both
gains at `1.0`, so `gain_l^2 + gain_r^2 = 2`, not `1`. -/
theorem panGains_zero_counterexample :
    ¬ ((panGains 0).1 ^ 2 + (panGains 0).2 ^ 2 = 1) := by
  norm_num [panGains]

/-- C5 (amended): at `pan = 0` the per-sample pan gains applied by
`process_block` are both exactly `1`, hence `gain_l = gain_r`, and
`gain_l^2 + gain_r^2 = 2`; the constant-power cos/sin law is applied
only when `pan ≠ 0`. -/
theorem panGains_zero_amended :
    (panGains 0).1 = (panGains 0).2 ∧ (panGains 0).1 ^ 2 + (panGains 0).2 ^ 2 = 2 := by
  norm_num [panGains]

/-! ## Claim C2: the insert chain in process_block -/

/-- C2 counterexample: the claim is false as stated.  A non-muted strip
holding one `SimpleDelay` insert (mix 4/5, zero-filled delay lines)
passes an input block `[1]` through unchanged, while the spec's insert
chain would produce `[1/5]`: the insert loop body is commented out in
the source, so the output does not reflect the insert chain. -/
theorem processBlock_insert_bypass_counterexample :
    (({ ChannelStrip.new 44100 with
        inserts := [⟨[DelayLine.new ℝ 16, DelayLine.new ℝ 16], 0, 1/2, 4/5, 44100⟩] } :
      ChannelStrip).processBlock [1] [1] [0] [0] 44100).2 = ([1], [1]) ∧
    (({ ChannelStrip.new 44100 with
        inserts := [⟨[DelayLine.new ℝ 16, DelayLine.new ℝ 16], 0, 1/2, 4/5, 44100⟩] } :
      ChannelStrip).processBlockWithInserts [1] [1] [0] [0] 44100).2 = ([1/5], [1/5]) ∧
    ¬ ((([1], [1]) : List ℝ × List ℝ) = ([1/5], [1/5])) := by
  refine ⟨?_, ?_, ?_⟩
  · norm_num [ChannelStrip.processBlock, ChannelStrip.new, insertsStage, panGains,
      gainRun, ThreeBandEQ.new, BiquadFilter.new]
  · norm_num [ChannelStrip.processBlockWithInserts, ChannelStrip.new, insertChain,
      SimpleDelayS.process, simpleDelayRun, DelayLine.read_interpolated,
      DelayLine.new, DelayLine.write, panGains, gainRun, ThreeBandEQ.new,
      BiquadFilter.new, List.getD_eq_getElem?_getD]
  · norm_num

/-- C2 (amended): the insert loop in `process_block` is bypassed (its
body is commented out): the output blocks and the resulting strip state
are exactly those of the same strip with an empty insert list, and the
inserts themselves are passed through unchanged. -/
theorem processBlock_ignores_inserts (s : ChannelStrip) (xs : List SimpleDelayS)
    (input_l input_r output_l output_r : List ℝ) (sample_rate : ℝ) :
    ({ s with inserts := xs } : ChannelStrip).processBlock
        input_l input_r output_l output_r sample_rate =
      (let p := ({ s with inserts := [] } : ChannelStrip).processBlock
          input_l input_r output_l output_r sample_rate
       ({ p.1 with inserts := xs }, p.2)) := by
  obtain ⟨el, er, cg, ctl, g, p, mu, so, ea, ca, th, ra, ins, pl, pr⟩ := s
  by_cases hm : mu
  · simp [ChannelStrip.processBlock, hm]
  · simp [ChannelStrip.processBlock, hm, insertsStage]

/-- C4 witness: with bpm 120, ppq 96, sample rate 44100, loop ticks
[0, 96) (loop-end sample 22050), advancing a playing transport by 22100
wraps the position to 50. -/
theorem transport_advance_spec_witness :
    ((((Transport.new 44100).set_loop true 0 96).play).advance 22100).current_sample = 50 := by
  have hles : castU ((((Transport.new 44100).set_loop true 0 96).play).loop_end_tick *
      (((Transport.new 44100).set_loop true 0 96).play).samples_per_tick) = 22050 := by
    norm_num [castU, Transport.new, Transport.recalculate_timing, Transport.set_loop,
      Transport.play]
    rfl
  have hlss : castU ((((Transport.new 44100).set_loop true 0 96).play).loop_start_tick *
      (((Transport.new 44100).set_loop true 0 96).play).samples_per_tick) = 0 := by
    norm_num [castU, Transport.new, Transport.recalculate_timing, Transport.set_loop,
      Transport.play]
  have hcur : (((Transport.new 44100).set_loop true 0 96).play).current_sample = 0 := by
    norm_num [Transport.new, Transport.recalculate_timing, Transport.set_loop, Transport.play]
  have h := (transport_advance_spec (((Transport.new 44100).set_loop true 0 96).play) 22100).2
    rfl
  have h2 := (h.2 rfl (by norm_num [Transport.new, Transport.recalculate_timing,
    Transport.set_loop, Transport.play])).2.2 (by rw [hles, hcur]; norm_num)
    (by rw [hles, hlss]; norm_num)
  rw [h2.1, hles, hlss, hcur]

end Dawg
